import Mathlib

/-!
Shallow embedding of `src/circular-buffer.h` (template class `circular_buffer<T>`).

The C++ object holds four fields: `data_` (raw allocation), `capacity_`,
`head_`, `size_`.  We model the allocation as a `List (Option α)` of length
`capacity_` (a slot is `some v` when a live `T` is constructed there, `none`
when the slot is raw memory), and the allocation's address as a `Nat`
(`0` plays the role of `nullptr`; a fresh allocation is modelled as
`old address + 1`, which is enough to record that a copy never aliases its
source).  Logical element `i` lives at physical slot
`(head_ + i) % capacity_`, exactly as in `get_real_index` / `operator[]`.
-/

set_option autoImplicit false

namespace CircBuf

variable {α : Type}

structure CB (α : Type) where
  ptr : Nat
  store : List (Option α)
  head : Nat
  size : Nat
deriving DecidableEq

/-- `capacity()`: the C++ field `capacity_` always equals the length of the
allocation, so we derive it from the store. -/
def capacity (b : CB α) : Nat := b.store.length

/-- Default constructor: `data_(nullptr), capacity_(0), head_(0), size_(0)`. -/
def emptyCB : CB α := ⟨0, [], 0, 0⟩

/-- Contents of the physical slot holding logical index `i`
(`data()[(head_ + i) % capacity_]`, as in `operator[]`). -/
def slot (b : CB α) (i : Nat) : Option α :=
  b.store.getD ((b.head + i) % b.store.length) none

/-- The logical content: slots of logical indices `0 .. size_-1` in order. -/
def logicalContent (b : CB α) : List (Option α) :=
  (List.range b.size).map (slot b)

/-- Private helper `tail()`: `(head_ + size()) % capacity_`. -/
def tailIdx (b : CB α) : Nat := (b.head + b.size) % b.store.length

/-- Private constructor `circular_buffer(const circular_buffer& other, size_t
new_capacity)`: allocate `new_capacity` slots (nullptr when zero), set
`head_ = 0`, `size_ = other.size_`, and `std::uninitialized_copy` the logical
content of `other` into physical slots `0 .. other.size_-1`; the remaining
slots stay uninitialized. -/
def copyWithCap (other : CB α) (newCap : Nat) : CB α :=
  ⟨if newCap = 0 then 0 else other.ptr + 1,
   logicalContent other ++ List.replicate (newCap - other.size) none,
   0,
   other.size⟩

/-- `ensure_capacity(new_capacity)`: grow (compacting) only when
`capacity_ < new_capacity`; `swap(tmp, *this)` adopts the copy. -/
def ensure_capacity (b : CB α) (newCap : Nat) : CB α :=
  if b.store.length < newCap then copyWithCap b newCap else b

/-- `reserve(desired_capacity)` forwards to `ensure_capacity`. -/
def reserve (b : CB α) (n : Nat) : CB α := ensure_capacity b n

/-- The capacity requested on implicit growth:
`capacity() == 0 ? 1 : capacity() * 2`. -/
def growCap (c : Nat) : Nat := if c = 0 then 1 else c * 2

/-- The non-full branch of `push_back`: `new (data() + tail()) T(val); ++size_;`. -/
def pushBackRaw (b : CB α) (v : α) : CB α :=
  { b with store := b.store.set (tailIdx b) (some v), size := b.size + 1 }

/-- `push_back(val)`.  When `size() == capacity()` the C++ code grows via
`ensure_capacity(capacity() == 0 ? 1 : capacity() * 2)` and calls itself
recursively; after the growth the buffer is never full (`2c > c ≥ size`), so
the recursive call always takes the non-full branch, which we inline. -/
def push_back (b : CB α) (v : α) : CB α :=
  if b.size = b.store.length then
    pushBackRaw (ensure_capacity b (growCap b.store.length)) v
  else
    pushBackRaw b v

/-- The non-full branch of `push_front`: construct at
`(head_ + capacity_ - 1) % capacity_`, make that the new head, `++size_`. -/
def pushFrontRaw (b : CB α) (v : α) : CB α :=
  { b with store := b.store.set ((b.head + b.store.length - 1) % b.store.length) (some v),
           head := (b.head + b.store.length - 1) % b.store.length,
           size := b.size + 1 }

/-- `push_front(val)`; growth handling identical to `push_back`. -/
def push_front (b : CB α) (v : α) : CB α :=
  if b.size = b.store.length then
    pushFrontRaw (ensure_capacity b (growCap b.store.length)) v
  else
    pushFrontRaw b v

/-- `pop_back()`: destroy `*(end() - 1)` (physical slot
`(size_ - 1 + head_) % capacity_`) and decrement `size_`. -/
def pop_back (b : CB α) : CB α :=
  { b with store := b.store.set ((b.size - 1 + b.head) % b.store.length) none,
           size := b.size - 1 }

/-- `pop_front()`: destroy `data()[head_]`, advance `head_` by one modulo
`capacity_`, decrement `size_`. -/
def pop_front (b : CB α) : CB α :=
  { b with store := b.store.set b.head none,
           head := (b.head + 1) % b.store.length,
           size := b.size - 1 }

/-- `std::iter_swap(i, j)` on two iterators of the same buffer, expressed on
logical offsets: exchange the contents of the two physical slots. -/
def swapSlots (b : CB α) (i j : Nat) : CB α :=
  let ri := (b.head + i) % b.store.length
  let rj := (b.head + j) % b.store.length
  let xi := b.store.getD ri none
  let xj := b.store.getD rj none
  { b with store := (b.store.set ri xj).set rj xi }

/-- `insert(pos, val)` with `d = pos - begin()`: if `d < size() / 2`,
`push_front` then bubble the new element up with `iter_swap(i, i+1)` for
`i = 0 .. d-1`; otherwise `push_back` then bubble it down with
`iter_swap(i, i-1)` for `i = newsize-1 down to d+1`. -/
def insert (b : CB α) (d : Nat) (v : α) : CB α :=
  if d < b.size / 2 then
    (List.range d).foldl (fun s i => swapSlots s i (i + 1)) (push_front b v)
  else
    let b1 := push_back b v
    ((List.range (b1.size - 1 - d)).reverse).foldl
      (fun s k => swapSlots s (d + 1 + k) (d + k)) b1

/-- `pop_back()` iterated (the `for (auto i = 0; i < delta; i++) pop_back();`
loop of `erase`). -/
def popBackN : CB α → Nat → CB α
  | b, 0 => b
  | b, n + 1 => popBackN (pop_back b) n

/-- `pop_front()` iterated. -/
def popFrontN : CB α → Nat → CB α
  | b, 0 => b
  | b, n + 1 => popFrontN (pop_front b) n

/-- `erase(first, last)` with `f = first - begin()`, `l = last - begin()`,
`delta = last - first`.  If `end() - last < size_ / 2`: shift the tail left
(`iter_swap(i, i+delta)` for `i = f` while `i + delta < size`), then
`pop_back` `delta` times.  Otherwise, when `delta != 0`: shift the head right
(`iter_swap(i, i-delta)` for `i = l-1` down to `delta`), then `pop_front`
`delta` times.  Otherwise leave the buffer unchanged. -/
def erase (b : CB α) (f l : Nat) : CB α :=
  let delta := l - f
  if b.size - l < b.size / 2 then
    popBackN
      ((List.range (b.size - delta - f)).foldl
        (fun s k => swapSlots s (f + k) (f + k + delta)) b)
      delta
  else if delta = 0 then
    b
  else
    popFrontN
      (((List.range (l - delta)).reverse).foldl
        (fun s k => swapSlots s (delta + k) k) b)
      delta

/-- `clear()`: `while (!empty()) pop_back();` — `size()` many pops. -/
def clear (b : CB α) : CB α := popBackN b b.size

/-- `operator==`: `data() == other.data() && head_ == other.head_ &&
size() == other.size()` (identity-flavored, capacity not compared). -/
def beqCB (a b : CB α) : Bool :=
  a.ptr == b.ptr && a.head == b.head && a.size == b.size

/-- Copy constructor: delegates to the private constructor with
`new_capacity = other.size_` (copies are compacted). -/
def copyCtor (b : CB α) : CB α := copyWithCap b b.size

/-- `operator=`: copy-and-swap guarded by `if (*this != other)`. -/
def assign (dst src : CB α) : CB α :=
  if beqCB dst src then dst else copyCtor src

/-- `swap(a, b)`: exchanges all four fields, so the two objects simply trade
states. -/
def swapCB (a b : CB α) : CB α × CB α := (b, a)

/-- Representation invariant maintained by every public operation:
`size_ ≤ capacity_`, and `head_` is a valid physical index as soon as the
buffer owns storage (`head_ = 0` while `capacity_ = 0`). -/
def WF (b : CB α) : Prop :=
  b.size ≤ b.store.length ∧
  (b.store.length = 0 → b.head = 0) ∧
  (0 < b.store.length → b.head < b.store.length)

instance (b : CB α) : Decidable (WF b) := by unfold WF; infer_instance

/-- One double-ended-queue operation (for the refinement claim). -/
inductive DOp (α : Type) where
  | pushB : α → DOp α
  | pushF : α → DOp α
  | popB : DOp α
  | popF : DOp α
deriving DecidableEq

/-- Run one operation on the circular buffer. -/
def applyOp (b : CB α) : DOp α → CB α
  | .pushB v => push_back b v
  | .pushF v => push_front b v
  | .popB => pop_back b
  | .popF => pop_front b

/-- Run a sequence of operations on the circular buffer. -/
def runOps (b : CB α) (ops : List (DOp α)) : CB α := ops.foldl applyOp b

/-- The reference double-ended-queue model: a plain list. -/
def dequeStep (m : List α) : DOp α → List α
  | .pushB v => m ++ [v]
  | .pushF v => v :: m
  | .popB => m.dropLast
  | .popF => m.tail

/-- Run a sequence of operations on the reference deque model. -/
def runDeque (m : List α) (ops : List (DOp α)) : List α := ops.foldl dequeStep m

/-- A sequence is valid when every pop is performed on a non-empty deque. -/
def validOps : List α → List (DOp α) → Bool
  | _, [] => true
  | m, .pushB v :: rest => validOps (m ++ [v]) rest
  | m, .pushF v :: rest => validOps (v :: m) rest
  | m, .popB :: rest => !m.isEmpty && validOps m.dropLast rest
  | m, .popF :: rest => !m.isEmpty && validOps m.tail rest

/-- States reachable from default construction by the public operations, with
every precondition respected (pops on non-empty buffers, positions and
ranges within bounds). -/
inductive Reach : CB α → Prop where
  | init : Reach emptyCB
  | pushB {b : CB α} (v : α) : Reach b → Reach (push_back b v)
  | pushF {b : CB α} (v : α) : Reach b → Reach (push_front b v)
  | popB {b : CB α} : Reach b → 0 < b.size → Reach (pop_back b)
  | popF {b : CB α} : Reach b → 0 < b.size → Reach (pop_front b)
  | res {b : CB α} (n : Nat) : Reach b → Reach (reserve b n)
  | clr {b : CB α} : Reach b → Reach (clear b)
  | ins {b : CB α} (d : Nat) (v : α) : Reach b → d ≤ b.size → Reach (insert b d v)
  | ers {b : CB α} (f l : Nat) : Reach b → f ≤ l → l ≤ b.size → Reach (erase b f l)
  | copy {b : CB α} : Reach b → Reach (copyCtor b)
  | asn {a b : CB α} : Reach a → Reach b → Reach (assign a b)

/-!
Fallible model for the exception-safety claim.  `T`'s copy constructor may
throw: `f v = true` means copying the value `v` throws; `g n = true` means
the allocation of `n` slots fails (`operator new` throws `bad_alloc`).
`Except.error s` means the operation exited with an exception while the
buffer was left in state `s`; `Except.ok s` is normal completion.
-/

/-- Fallible private constructor: allocation happens first (nothing mutated on
failure); then `std::uninitialized_copy` copies the source's logical elements
in order, and if any copy throws the constructor destroys what it built,
frees the block and rethrows — the source buffer is untouched either way. -/
def copyWithCapF (f : α → Bool) (g : Nat → Bool) (b : CB α) (newCap : Nat) :
    Except Unit (CB α) :=
  if newCap ≠ 0 && g newCap then .error ()
  else if (logicalContent b).any (fun o => (o.map f).getD false) then .error ()
  else .ok (copyWithCap b newCap)

/-- Fallible `ensure_capacity`: if the temporary's construction throws, the
buffer is unchanged; otherwise `swap(tmp, *this)` commits it. -/
def ensureCapacityF (f : α → Bool) (g : Nat → Bool) (b : CB α) (newCap : Nat) :
    Except (CB α) (CB α) :=
  if b.store.length < newCap then
    match copyWithCapF f g b newCap with
    | .error _ => .error b
    | .ok tmp => .ok tmp
  else .ok b

/-- Fallible `push_back`: on a full buffer, growth is committed *before* the
new element is copy-constructed; if that final copy throws, the exception
escapes with the buffer already reallocated. -/
def pushBackF (f : α → Bool) (g : Nat → Bool) (b : CB α) (v : α) :
    Except (CB α) (CB α) :=
  if b.size = b.store.length then
    match ensureCapacityF f g b (growCap b.store.length) with
    | .error s => .error s
    | .ok s => if f v then .error s else .ok (pushBackRaw s v)
  else if f v then .error b else .ok (pushBackRaw b v)

/-- Fallible `push_front`; identical structure to `pushBackF`. -/
def pushFrontF (f : α → Bool) (g : Nat → Bool) (b : CB α) (v : α) :
    Except (CB α) (CB α) :=
  if b.size = b.store.length then
    match ensureCapacityF f g b (growCap b.store.length) with
    | .error s => .error s
    | .ok s => if f v then .error s else .ok (pushFrontRaw s v)
  else if f v then .error b else .ok (pushFrontRaw b v)

/-- Swap of two positions of a plain list (the image of `swapSlots` on the
logical content). -/
def lswap {β : Type} (l : List β) (i j : Nat) (d : β) : List β :=
  (l.set i (l.getD j d)).set j (l.getD i d)

/-! ### Basic helper lemmas -/

theorem getD_set_self {β : Type} (l : List β) (i : Nat) (x d : β) (h : i < l.length) :
    (l.set i x).getD i d = x := by
  rw [List.getD_eq_getElem?_getD, List.getElem?_set_self h]
  rfl

theorem getD_set_of_ne {β : Type} (l : List β) {i j : Nat} (x d : β) (h : i ≠ j) :
    (l.set i x).getD j d = l.getD j d := by
  rw [List.getD_eq_getElem?_getD, List.getElem?_set_ne h, ← List.getD_eq_getElem?_getD]

theorem map_range_getD {β : Type} (l : List β) (d : β) :
    (List.range l.length).map (fun i => l.getD i d) = l := by
  apply List.ext_getElem
  · simp
  · intro n h1 h2
    simp only [List.getElem_map, List.getElem_range]
    exact List.getD_eq_getElem l d h2

theorem mod_add_inj {c h i j : Nat} (hi : i < c) (hj : j < c)
    (he : (h + i) % c = (h + j) % c) : i = j := by
  have h2 : i ≡ j [MOD c] := Nat.ModEq.add_left_cancel (Nat.ModEq.refl h) he
  rwa [Nat.ModEq, Nat.mod_eq_of_lt hi, Nat.mod_eq_of_lt hj] at h2

theorem length_logicalContent (b : CB α) : (logicalContent b).length = b.size := by
  simp [logicalContent]

theorem logicalContent_emptyCB : logicalContent (emptyCB : CB α) = [] := rfl

theorem WF_emptyCB : WF (emptyCB : CB α) := ⟨Nat.le_refl 0, fun _ => rfl, fun h => absurd h (by simp [emptyCB])⟩

/-! ### The compacting private constructor -/

theorem logicalContent_compact (p : Nat) (C rest : List (Option α)) :
    logicalContent ⟨p, C ++ rest, 0, C.length⟩ = C := by
  unfold logicalContent slot
  simp only [List.length_append]
  have step : ∀ i ∈ List.range C.length,
      (C ++ rest).getD ((0 + i) % (C.length + rest.length)) none = C.getD i none := by
    intro i hi
    have hi' : i < C.length := List.mem_range.mp hi
    rw [Nat.zero_add, Nat.mod_eq_of_lt (by omega), List.getD_append _ _ _ _ hi']
  rw [List.map_congr_left step]
  exact map_range_getD C none

theorem logicalContent_copyWithCap (b : CB α) (n : Nat) :
    logicalContent (copyWithCap b n) = logicalContent b := by
  have h := logicalContent_compact (if n = 0 then 0 else b.ptr + 1) (logicalContent b)
      (List.replicate (n - b.size) none)
  rw [length_logicalContent] at h
  exact h

theorem size_copyWithCap (b : CB α) (n : Nat) : (copyWithCap b n).size = b.size := rfl

theorem head_copyWithCap (b : CB α) (n : Nat) : (copyWithCap b n).head = 0 := rfl

theorem capacity_copyWithCap (b : CB α) (n : Nat) (h : b.size ≤ n) :
    capacity (copyWithCap b n) = n := by
  simp only [capacity, copyWithCap, List.length_append, length_logicalContent,
    List.length_replicate]
  omega

theorem WF_copyWithCap (b : CB α) (n : Nat) : WF (copyWithCap b n) := by
  refine ⟨?_, fun _ => rfl, fun h => h⟩
  simp only [copyWithCap, List.length_append, length_logicalContent, List.length_replicate]
  omega

/-! ### `ensure_capacity` -/

theorem logicalContent_ensure (b : CB α) (n : Nat) :
    logicalContent (ensure_capacity b n) = logicalContent b := by
  unfold ensure_capacity
  split
  · exact logicalContent_copyWithCap b n
  · rfl

theorem size_ensure (b : CB α) (n : Nat) : (ensure_capacity b n).size = b.size := by
  unfold ensure_capacity
  split <;> rfl

theorem WF_ensure (b : CB α) (n : Nat) (h : WF b) : WF (ensure_capacity b n) := by
  unfold ensure_capacity
  split
  · exact WF_copyWithCap b n
  · exact h

theorem capacity_ensure_of_lt (b : CB α) (n : Nat) (hs : b.size ≤ b.store.length)
    (h : b.store.length < n) : capacity (ensure_capacity b n) = n := by
  unfold ensure_capacity
  rw [if_pos h]
  exact capacity_copyWithCap b n (by omega)

theorem head_ensure_of_lt (b : CB α) (n : Nat) (h : b.store.length < n) :
    (ensure_capacity b n).head = 0 := by
  unfold ensure_capacity
  rw [if_pos h]
  rfl

/-! ### The non-full push branches -/

theorem logicalContent_pushBackRaw (b : CB α) (v : α) (hs : b.size < b.store.length)
    (hh : b.head < b.store.length) :
    logicalContent (pushBackRaw b v) = logicalContent b ++ [some v] := by
  have hc : 0 < b.store.length := Nat.lt_of_le_of_lt (Nat.zero_le _) hs
  unfold logicalContent pushBackRaw slot tailIdx
  simp only [List.length_set]
  rw [List.range_succ, List.map_append, List.map_cons, List.map_nil]
  congr 1
  · apply List.map_congr_left
    intro i hi
    have hi' : i < b.size := List.mem_range.mp hi
    apply getD_set_of_ne
    intro hcontra
    exact absurd (mod_add_inj hs (by omega) hcontra) (by omega)
  · rw [getD_set_self _ _ _ _ (Nat.mod_lt _ hc)]

theorem WF_pushBackRaw (b : CB α) (v : α) (h : WF b) (hs : b.size < b.store.length) :
    WF (pushBackRaw b v) := by
  obtain ⟨-, h2, h3⟩ := h
  simp only [WF, pushBackRaw, List.length_set]
  exact ⟨hs, h2, h3⟩

theorem logicalContent_pushFrontRaw (b : CB α) (v : α) (hs : b.size < b.store.length)
    (hh : b.head < b.store.length) :
    logicalContent (pushFrontRaw b v) = some v :: logicalContent b := by
  have hc : 0 < b.store.length := Nat.lt_of_le_of_lt (Nat.zero_le _) hs
  unfold logicalContent pushFrontRaw slot
  simp only [List.length_set]
  rw [List.range_succ_eq_map, List.map_cons, List.map_map]
  congr 1
  · rw [Nat.add_zero, Nat.mod_eq_of_lt (Nat.mod_lt _ hc)]
    exact getD_set_self _ _ _ _ (Nat.mod_lt _ hc)
  · apply List.map_congr_left
    intro i hi
    have hi' : i < b.size := List.mem_range.mp hi
    show (b.store.set _ _).getD (((b.head + b.store.length - 1) % b.store.length + (i + 1)) %
        b.store.length) none = b.store.getD ((b.head + i) % b.store.length) none
    have key : ((b.head + b.store.length - 1) % b.store.length + (i + 1)) % b.store.length
        = (b.head + i) % b.store.length := by
      rw [Nat.mod_add_mod]
      have harith : b.head + b.store.length - 1 + (i + 1) = b.head + i + b.store.length := by
        omega
      rw [harith, Nat.add_mod_right]
    rw [key]
    apply getD_set_of_ne
    intro hcontra
    have hrw : (b.head + (b.store.length - 1)) % b.store.length
        = (b.head + i) % b.store.length := by
      rw [← hcontra]
      congr 1
      omega
    have := mod_add_inj (c := b.store.length) (by omega) (by omega) hrw
    omega

theorem WF_pushFrontRaw (b : CB α) (v : α) (h : WF b) (hs : b.size < b.store.length) :
    WF (pushFrontRaw b v) := by
  have hc : 0 < b.store.length := Nat.lt_of_le_of_lt (Nat.zero_le _) hs
  simp only [WF, pushFrontRaw, List.length_set]
  exact ⟨hs, by omega, fun _ => Nat.mod_lt _ hc⟩

/-! ### Pops -/

theorem size_pop_back (b : CB α) : (pop_back b).size = b.size - 1 := rfl

theorem size_pop_front (b : CB α) : (pop_front b).size = b.size - 1 := rfl

theorem capacity_pop_back (b : CB α) : capacity (pop_back b) = capacity b := by
  simp [pop_back, capacity]

theorem capacity_pop_front (b : CB α) : capacity (pop_front b) = capacity b := by
  simp [pop_front, capacity]

theorem logicalContent_pop_back (b : CB α) (h : WF b) (hs : 0 < b.size) :
    logicalContent (pop_back b) = (logicalContent b).take (b.size - 1) := by
  obtain ⟨h1, h2, h3⟩ := h
  have hc : 0 < b.store.length := Nat.lt_of_lt_of_le hs h1
  unfold logicalContent pop_back slot
  simp only [List.length_set]
  rw [← List.map_take, List.take_range]
  have hmin : (b.size - 1) ⊓ b.size = b.size - 1 := by omega
  rw [hmin]
  apply List.map_congr_left
  intro i hi
  have hi' : i < b.size - 1 := List.mem_range.mp hi
  apply getD_set_of_ne
  intro hcontra
  rw [Nat.add_comm (b.size - 1) b.head] at hcontra
  exact absurd (mod_add_inj (by omega) (by omega) hcontra) (by omega)

theorem WF_pop_back (b : CB α) (h : WF b) : WF (pop_back b) := by
  obtain ⟨h1, h2, h3⟩ := h
  simp only [WF, pop_back, List.length_set]
  exact ⟨by omega, h2, h3⟩

theorem logicalContent_pop_front (b : CB α) (h : WF b) (hs : 0 < b.size) :
    logicalContent (pop_front b) = (logicalContent b).tail := by
  obtain ⟨h1, h2, h3⟩ := h
  have hc : 0 < b.store.length := Nat.lt_of_lt_of_le hs h1
  have hh : b.head < b.store.length := h3 hc
  obtain ⟨n, hn⟩ : ∃ n, b.size = n + 1 := ⟨b.size - 1, by omega⟩
  unfold logicalContent pop_front slot
  simp only [List.length_set, size_pop_front]
  rw [hn, Nat.add_sub_cancel, List.range_succ_eq_map, List.map_cons, List.map_map,
    List.tail_cons]
  apply List.map_congr_left
  intro i hi
  have hi' : i < n := List.mem_range.mp hi
  show (b.store.set b.head none).getD (((b.head + 1) % b.store.length + i) %
      b.store.length) none = b.store.getD ((b.head + (i + 1)) % b.store.length) none
  have key : ((b.head + 1) % b.store.length + i) % b.store.length
      = (b.head + (i + 1)) % b.store.length := by
    rw [Nat.mod_add_mod]
    congr 1
    omega
  rw [key]
  apply getD_set_of_ne
  intro hcontra
  have h0 : (b.head + (i + 1)) % b.store.length = (b.head + 0) % b.store.length := by
    rw [Nat.add_zero b.head, Nat.mod_eq_of_lt hh]
    exact hcontra.symm
  exact absurd (mod_add_inj (by omega) (by omega) h0) (by omega)

theorem WF_pop_front (b : CB α) (h : WF b) (hs : 0 < b.size) : WF (pop_front b) := by
  obtain ⟨h1, h2, h3⟩ := h
  have hc : 0 < b.store.length := Nat.lt_of_lt_of_le hs h1
  simp only [WF, pop_front, List.length_set]
  exact ⟨by omega, by omega, fun _ => Nat.mod_lt _ hc⟩

/-! ### Full `push_back` / `push_front` -/

theorem growCap_gt (c : Nat) : c < growCap c := by
  unfold growCap
  split <;> omega

theorem size_push_back (b : CB α) (v : α) : (push_back b v).size = b.size + 1 := by
  unfold push_back
  split
  · show (pushBackRaw _ _).size = _
    simp only [pushBackRaw, size_ensure]
  · rfl

theorem size_push_front (b : CB α) (v : α) : (push_front b v).size = b.size + 1 := by
  unfold push_front
  split
  · show (pushFrontRaw _ _).size = _
    simp only [pushFrontRaw, size_ensure]
  · rfl

theorem logicalContent_push_back (b : CB α) (v : α) (h : WF b) :
    logicalContent (push_back b v) = logicalContent b ++ [some v] := by
  obtain ⟨h1, h2, h3⟩ := h
  unfold push_back
  split
  · rename_i hfull
    set b' := ensure_capacity b (growCap b.store.length) with hb'
    have hcap : capacity b' = growCap b.store.length :=
      capacity_ensure_of_lt b _ h1 (growCap_gt _)
    have hsz : b'.size = b.size := size_ensure b _
    have hWF' : WF b' := WF_ensure b _ ⟨h1, h2, h3⟩
    have hlt : b'.size < b'.store.length := by
      rw [hsz]
      show b.size < capacity b'
      rw [hcap, hfull]
      exact growCap_gt _
    rw [logicalContent_pushBackRaw b' v hlt (hWF'.2.2 (by omega)), logicalContent_ensure]
  · rename_i hne
    have hlt : b.size < b.store.length := by omega
    exact logicalContent_pushBackRaw b v hlt (h3 (by omega))

theorem WF_push_back (b : CB α) (v : α) (h : WF b) : WF (push_back b v) := by
  obtain ⟨h1, h2, h3⟩ := h
  unfold push_back
  split
  · rename_i hfull
    have hWF' : WF (ensure_capacity b (growCap b.store.length)) := WF_ensure b _ ⟨h1, h2, h3⟩
    apply WF_pushBackRaw _ _ hWF'
    rw [size_ensure]
    show b.size < capacity (ensure_capacity b (growCap b.store.length))
    rw [capacity_ensure_of_lt b _ h1 (growCap_gt _), hfull]
    exact growCap_gt _
  · exact WF_pushBackRaw _ _ ⟨h1, h2, h3⟩ (by omega)

theorem logicalContent_push_front (b : CB α) (v : α) (h : WF b) :
    logicalContent (push_front b v) = some v :: logicalContent b := by
  obtain ⟨h1, h2, h3⟩ := h
  unfold push_front
  split
  · rename_i hfull
    set b' := ensure_capacity b (growCap b.store.length) with hb'
    have hcap : capacity b' = growCap b.store.length :=
      capacity_ensure_of_lt b _ h1 (growCap_gt _)
    have hsz : b'.size = b.size := size_ensure b _
    have hWF' : WF b' := WF_ensure b _ ⟨h1, h2, h3⟩
    have hlt : b'.size < b'.store.length := by
      rw [hsz]
      show b.size < capacity b'
      rw [hcap, hfull]
      exact growCap_gt _
    rw [logicalContent_pushFrontRaw b' v hlt (hWF'.2.2 (by omega)), logicalContent_ensure]
  · rename_i hne
    have hlt : b.size < b.store.length := by omega
    exact logicalContent_pushFrontRaw b v hlt (h3 (by omega))

theorem WF_push_front (b : CB α) (v : α) (h : WF b) : WF (push_front b v) := by
  obtain ⟨h1, h2, h3⟩ := h
  unfold push_front
  split
  · rename_i hfull
    have hWF' : WF (ensure_capacity b (growCap b.store.length)) := WF_ensure b _ ⟨h1, h2, h3⟩
    apply WF_pushFrontRaw _ _ hWF'
    rw [size_ensure]
    show b.size < capacity (ensure_capacity b (growCap b.store.length))
    rw [capacity_ensure_of_lt b _ h1 (growCap_gt _), hfull]
    exact growCap_gt _
  · exact WF_pushFrontRaw _ _ ⟨h1, h2, h3⟩ (by omega)

/-! ### Refinement against the deque model (claim C1) -/

theorem sim_run (ops : List (DOp α)) : ∀ (b : CB α) (m : List α), WF b →
    logicalContent b = m.map some → validOps m ops = true →
    WF (runOps b ops) ∧ logicalContent (runOps b ops) = (runDeque m ops).map some := by
  induction ops with
  | nil =>
    intro b m hWF hC _
    exact ⟨hWF, by simpa [runOps, runDeque] using hC⟩
  | cons op rest ih =>
    intro b m hWF hC hv
    have hsize : b.size = m.length := by
      have hl := length_logicalContent b
      rw [hC, List.length_map] at hl
      exact hl.symm
    cases op with
    | pushB v =>
      have hC' : logicalContent (push_back b v) = (m ++ [v]).map some := by
        rw [logicalContent_push_back b v hWF, hC, List.map_append]
        rfl
      exact ih (push_back b v) (m ++ [v]) (WF_push_back b v hWF) hC' hv
    | pushF v =>
      have hC' : logicalContent (push_front b v) = (v :: m).map some := by
        rw [logicalContent_push_front b v hWF, hC]
        rfl
      exact ih (push_front b v) (v :: m) (WF_push_front b v hWF) hC' hv
    | popB =>
      have hv' : (!m.isEmpty && validOps m.dropLast rest) = true := hv
      have hm : m ≠ [] := by
        intro hnil
        simp [hnil] at hv'
      have hpos : 0 < b.size := by
        rw [hsize]
        exact List.length_pos.mpr hm
      have hC' : logicalContent (pop_back b) = m.dropLast.map some := by
        rw [logicalContent_pop_back b hWF hpos, hC, List.map_dropLast,
          List.dropLast_eq_take, List.length_map, hsize]
      exact ih (pop_back b) m.dropLast (WF_pop_back b hWF)
        hC' (Bool.and_elim_right hv')
    | popF =>
      have hv' : (!m.isEmpty && validOps m.tail rest) = true := hv
      have hm : m ≠ [] := by
        intro hnil
        simp [hnil] at hv'
      have hpos : 0 < b.size := by
        rw [hsize]
        exact List.length_pos.mpr hm
      have hC' : logicalContent (pop_front b) = m.tail.map some := by
        rw [logicalContent_pop_front b hWF hpos, hC, List.map_tail]
      exact ih (pop_front b) m.tail (WF_pop_front b hWF hpos)
        hC' (Bool.and_elim_right hv')

/-- C1: for every valid sequence of push_back/push_front/pop_back/pop_front
operations (each pop on a non-empty buffer), running the sequence from a
default-constructed `circular_buffer` produces the same logical content as
the reference double-ended-queue (plain list) model. -/
theorem push_pop_refines_deque (ops : List (DOp α)) (hv : validOps [] ops = true) :
    logicalContent (runOps emptyCB ops) = (runDeque [] ops).map some :=
  (sim_run ops emptyCB [] WF_emptyCB rfl hv).2

/-- Witness for C1 at the concrete sequence
push_back 1, push_back 2, push_front 0, pop_back. -/
theorem push_pop_refines_deque_witness :
    validOps [] [DOp.pushB (1 : Nat), DOp.pushB 2, DOp.pushF 0, DOp.popB] = true ∧
    logicalContent (runOps emptyCB [DOp.pushB (1 : Nat), DOp.pushB 2, DOp.pushF 0, DOp.popB])
      = (runDeque [] [DOp.pushB (1 : Nat), DOp.pushB 2, DOp.pushF 0, DOp.popB]).map some :=
  ⟨by decide, push_pop_refines_deque _ (by decide)⟩

/-! ### Capacity growth (claim C3) -/

theorem capacity_pushBackRaw (b : CB α) (v : α) : capacity (pushBackRaw b v) = capacity b := by
  simp [pushBackRaw, capacity]

theorem capacity_pushFrontRaw (b : CB α) (v : α) : capacity (pushFrontRaw b v) = capacity b := by
  simp [pushFrontRaw, capacity]

/-- C3: a push on a full buffer (`size() == capacity()`) grows the capacity to
`1` when the old capacity was `0`, and to exactly `2*c` when it was `c > 0`;
this holds for `push_back` and `push_front` alike. -/
theorem capacity_after_full_push (b : CB α) (v : α) (h : b.size = capacity b) :
    capacity (push_back b v) = (if capacity b = 0 then 1 else 2 * capacity b) ∧
    capacity (push_front b v) = (if capacity b = 0 then 1 else 2 * capacity b) := by
  have hgc : growCap b.store.length = (if capacity b = 0 then 1 else 2 * capacity b) := by
    unfold growCap capacity
    split <;> omega
  have h' : b.size = b.store.length := h
  constructor
  · unfold push_back
    rw [if_pos h', capacity_pushBackRaw,
      capacity_ensure_of_lt b _ (Nat.le_of_eq h') (growCap_gt _), hgc]
  · unfold push_front
    rw [if_pos h', capacity_pushFrontRaw,
      capacity_ensure_of_lt b _ (Nat.le_of_eq h') (growCap_gt _), hgc]

/-- Witness for C3 at a full buffer of capacity 1 and at the empty buffer of
capacity 0. -/
theorem capacity_after_full_push_witness :
    ((⟨1, [some 7], 0, 1⟩ : CB Nat).size = capacity ⟨1, [some 7], 0, 1⟩ ∧
      capacity (push_back (⟨1, [some 7], 0, 1⟩ : CB Nat) 5)
        = (if capacity (⟨1, [some 7], 0, 1⟩ : CB Nat) = 0 then 1
           else 2 * capacity (⟨1, [some 7], 0, 1⟩ : CB Nat))) ∧
    capacity (push_back (emptyCB : CB Nat) 5) = 1 := by
  refine ⟨⟨by decide, (capacity_after_full_push (⟨1, [some 7], 0, 1⟩ : CB Nat) 5 (by decide)).1⟩, ?_⟩
  have h := (capacity_after_full_push (emptyCB : CB Nat) 5 (by decide)).1
  simpa using h

/-! ### Copy construction (claim C6) -/

/-- C6: copy construction produces a compacted deep copy: identical logical
content, capacity equal to the source's `size()` (not its capacity), head 0,
and (whenever anything is allocated) a storage pointer different from the
source's, so the two buffers never share storage. -/
theorem copyCtor_deep_compact (b : CB α) :
    logicalContent (copyCtor b) = logicalContent b ∧
    capacity (copyCtor b) = b.size ∧
    (copyCtor b).head = 0 ∧
    (b.size ≠ 0 → (copyCtor b).ptr ≠ b.ptr) := by
  refine ⟨logicalContent_copyWithCap b b.size,
    capacity_copyWithCap b b.size (Nat.le_refl _), rfl, ?_⟩
  intro hne
  show (if b.size = 0 then 0 else b.ptr + 1) ≠ b.ptr
  rw [if_neg hne]
  omega

/-- Witness for C6 at a one-element buffer. -/
theorem copyCtor_deep_compact_witness :
    logicalContent (copyCtor (⟨5, [some 3], 0, 1⟩ : CB Nat))
      = logicalContent (⟨5, [some 3], 0, 1⟩ : CB Nat) ∧
    capacity (copyCtor (⟨5, [some 3], 0, 1⟩ : CB Nat)) = 1 ∧
    (copyCtor (⟨5, [some 3], 0, 1⟩ : CB Nat)).head = 0 ∧
    (copyCtor (⟨5, [some 3], 0, 1⟩ : CB Nat)).ptr ≠ 5 := by
  have h := copyCtor_deep_compact (⟨5, [some 3], 0, 1⟩ : CB Nat)
  exact ⟨h.1, h.2.1, h.2.2.1, h.2.2.2 (by decide)⟩

/-! ### Self-assignment (claim C7) -/

theorem beqCB_self (b : CB α) : beqCB b b = true := by
  simp [beqCB]

/-- C7: self-assignment `A = A` takes the `*this != other` guard's false
branch (the operands compare equal, sharing storage pointer, head and size),
so `A` is left completely unchanged: same logical content, size, capacity and
head. -/
theorem assign_self (b : CB α) :
    assign b b = b ∧
    logicalContent (assign b b) = logicalContent b ∧
    (assign b b).size = b.size ∧
    capacity (assign b b) = capacity b ∧
    (assign b b).head = b.head := by
  have h : assign b b = b := by
    unfold assign
    rw [if_pos (beqCB_self b)]
  exact ⟨h, by rw [h], by rw [h], by rw [h], by rw [h]⟩

/-! ### Equality of default-constructed buffers (claim C9) -/

/-- C9: any two default-constructed buffers have a null (`0`) storage
pointer, head `0` and size `0`, so `operator==` — which compares exactly
these three — reports them equal even though they are distinct objects; the
`operator=` guard `*this != other` is then false and assignment of one
default-constructed buffer to another makes no copy and leaves the target
unchanged. -/
theorem default_buffers_equal :
    (emptyCB : CB α).ptr = 0 ∧
    beqCB (emptyCB : CB α) emptyCB = true ∧
    assign (emptyCB : CB α) emptyCB = emptyCB :=
  ⟨rfl, rfl, rfl⟩

/-! ### Generic list helpers for the shifting loops -/

theorem eq_of_getD {β : Type} (l1 l2 : List β) (d : β) (hlen : l1.length = l2.length)
    (h : ∀ n, n < l1.length → l1.getD n d = l2.getD n d) : l1 = l2 := by
  apply List.ext_getElem hlen
  intro n h1 h2
  have hn := h n h1
  rwa [List.getD_eq_getElem _ _ h1, List.getD_eq_getElem _ _ h2] at hn

theorem getD_logicalContent (b : CB α) (n : Nat) (h : n < b.size) :
    (logicalContent b).getD n none = slot b n := by
  rw [List.getD_eq_getElem _ _ (by rw [length_logicalContent]; exact h)]
  simp [logicalContent]

theorem length_lswap {β : Type} (l : List β) (i j : Nat) (d : β) :
    (lswap l i j d).length = l.length := by
  simp [lswap]

theorem getD_lswap_snd {β : Type} (l : List β) (i j : Nat) (d : β) (hj : j < l.length) :
    (lswap l i j d).getD j d = l.getD i d := by
  unfold lswap
  exact getD_set_self _ _ _ _ (by simp [hj])

theorem getD_lswap_fst {β : Type} (l : List β) (i j : Nat) (d : β) (hne : i ≠ j)
    (hi : i < l.length) : (lswap l i j d).getD i d = l.getD j d := by
  unfold lswap
  rw [getD_set_of_ne _ _ _ (fun he => hne he.symm), getD_set_self _ _ _ _ hi]

theorem getD_lswap_other {β : Type} (l : List β) (i j k : Nat) (d : β)
    (h1 : k ≠ i) (h2 : k ≠ j) : (lswap l i j d).getD k d = l.getD k d := by
  unfold lswap
  rw [getD_set_of_ne _ _ _ (fun he => h2 he.symm), getD_set_of_ne _ _ _ (fun he => h1 he.symm)]

/-! ### `iter_swap` on the buffer versus `lswap` on the logical content -/

theorem size_swapSlots (b : CB α) (i j : Nat) : (swapSlots b i j).size = b.size := rfl

theorem head_swapSlots (b : CB α) (i j : Nat) : (swapSlots b i j).head = b.head := rfl

theorem capacity_swapSlots (b : CB α) (i j : Nat) : capacity (swapSlots b i j) = capacity b := by
  simp [swapSlots, capacity]

theorem WF_swapSlots (b : CB α) (i j : Nat) (h : WF b) : WF (swapSlots b i j) := by
  obtain ⟨h1, h2, h3⟩ := h
  simp only [WF, swapSlots, List.length_set]
  exact ⟨h1, h2, h3⟩

theorem logicalContent_swapSlots (b : CB α) (i j : Nat) (h : WF b)
    (hi : i < b.size) (hj : j < b.size) :
    logicalContent (swapSlots b i j) = lswap (logicalContent b) i j none := by
  obtain ⟨h1, h2, h3⟩ := h
  have hc : 0 < b.store.length := by omega
  have hh : b.head < b.store.length := h3 hc
  have hlen : (logicalContent (swapSlots b i j)).length = (lswap (logicalContent b) i j none).length := by
    rw [length_logicalContent, length_lswap, length_logicalContent, size_swapSlots]
  apply eq_of_getD _ _ none hlen
  intro n hn
  rw [length_logicalContent, size_swapSlots] at hn
  rw [getD_logicalContent _ _ (by rw [size_swapSlots]; exact hn)]
  have hcontent : i < (logicalContent b).length ∧ j < (logicalContent b).length := by
    rw [length_logicalContent]
    exact ⟨hi, hj⟩
  show (swapSlots b i j).store.getD (((swapSlots b i j).head + n) %
      (swapSlots b i j).store.length) none = _
  have hsto : (swapSlots b i j).store.length = b.store.length := by
    simp [swapSlots]
  rw [hsto, head_swapSlots]
  by_cases hnj : n = j
  · subst hnj
    show ((b.store.set _ _).set ((b.head + n) % b.store.length) _).getD
        ((b.head + n) % b.store.length) none = _
    rw [getD_set_self _ _ _ _ (by rw [List.length_set]; exact Nat.mod_lt _ hc),
      getD_lswap_snd _ _ _ _ hcontent.2, getD_logicalContent _ _ hi]
    rfl
  · by_cases hni : n = i
    · subst hni
      show ((b.store.set ((b.head + n) % b.store.length) _).set
          ((b.head + j) % b.store.length) _).getD ((b.head + n) % b.store.length) none = _
      rw [getD_set_of_ne _ _ _ (fun he => hnj (mod_add_inj (by omega) (by omega) he.symm)),
        getD_set_self _ _ _ _ (Nat.mod_lt _ hc),
        getD_lswap_fst _ _ _ _ hnj hcontent.1, getD_logicalContent _ _ hj]
      rfl
    · show ((b.store.set ((b.head + i) % b.store.length) _).set
          ((b.head + j) % b.store.length) _).getD ((b.head + n) % b.store.length) none = _
      rw [getD_set_of_ne _ _ _ (fun he => hnj (mod_add_inj (by omega) (by omega) he.symm)),
        getD_set_of_ne _ _ _ (fun he => hni (mod_add_inj (by omega) (by omega) he.symm)),
        getD_lswap_other _ _ _ _ _ hni hnj, getD_logicalContent _ _ hn]
      rfl

/-! ### Folding `iter_swap` over a list of index pairs -/

theorem swapFold_spec (ps : List (Nat × Nat)) : ∀ (b : CB α), WF b →
    (∀ p ∈ ps, p.1 < b.size ∧ p.2 < b.size) →
    logicalContent (ps.foldl (fun s p => swapSlots s p.1 p.2) b)
      = ps.foldl (fun l p => lswap l p.1 p.2 none) (logicalContent b) ∧
    WF (ps.foldl (fun s p => swapSlots s p.1 p.2) b) ∧
    (ps.foldl (fun s p => swapSlots s p.1 p.2) b).size = b.size := by
  induction ps with
  | nil => intro b h _; exact ⟨rfl, h, rfl⟩
  | cons p rest ih =>
    intro b h hb
    have hp := hb p (List.mem_cons_self p rest)
    have hstep : logicalContent (swapSlots b p.1 p.2) = lswap (logicalContent b) p.1 p.2 none :=
      logicalContent_swapSlots b p.1 p.2 h hp.1 hp.2
    have hrest : ∀ q ∈ rest, q.1 < (swapSlots b p.1 p.2).size ∧ q.2 < (swapSlots b p.1 p.2).size := by
      intro q hq
      rw [size_swapSlots]
      exact hb q (List.mem_cons_of_mem p hq)
    obtain ⟨hC, hW, hs⟩ := ih (swapSlots b p.1 p.2) (WF_swapSlots b p.1 p.2 h) hrest
    refine ⟨?_, hW, by rw [List.foldl_cons, hs, size_swapSlots]⟩
    rw [List.foldl_cons, hC, hstep, List.foldl_cons]

/-! ### Iterated pops -/

theorem popBackN_spec (n : Nat) : ∀ (b : CB α), WF b → n ≤ b.size →
    WF (popBackN b n) ∧ (popBackN b n).size = b.size - n ∧
    capacity (popBackN b n) = capacity b ∧
    logicalContent (popBackN b n) = (logicalContent b).take (b.size - n) := by
  induction n with
  | zero =>
    intro b h _
    refine ⟨h, rfl, rfl, ?_⟩
    rw [Nat.sub_zero, ← length_logicalContent, List.take_length]
    rfl
  | succ n ih =>
    intro b h hn
    have hpos : 0 < b.size := by omega
    obtain ⟨hW, hs, hc, hC⟩ := ih (pop_back b) (WF_pop_back b h)
      (by rw [size_pop_back]; omega)
    refine ⟨hW, ?_, ?_, ?_⟩
    · show (popBackN (pop_back b) n).size = _
      rw [hs, size_pop_back]
      omega
    · show capacity (popBackN (pop_back b) n) = _
      rw [hc, capacity_pop_back]
    · show logicalContent (popBackN (pop_back b) n) = _
      rw [hC, logicalContent_pop_back b h hpos, size_pop_back, List.take_take]
      congr 1
      omega

theorem popFrontN_spec (n : Nat) : ∀ (b : CB α), WF b → n ≤ b.size →
    WF (popFrontN b n) ∧ (popFrontN b n).size = b.size - n ∧
    capacity (popFrontN b n) = capacity b ∧
    logicalContent (popFrontN b n) = (logicalContent b).drop n := by
  induction n with
  | zero =>
    intro b h _
    exact ⟨h, rfl, rfl, rfl⟩
  | succ n ih =>
    intro b h hn
    have hpos : 0 < b.size := by omega
    obtain ⟨hW, hs, hc, hC⟩ := ih (pop_front b) (WF_pop_front b h hpos)
      (by rw [size_pop_front]; omega)
    refine ⟨hW, ?_, ?_, ?_⟩
    · show (popFrontN (pop_front b) n).size = _
      rw [hs, size_pop_front]
      omega
    · show capacity (popFrontN (pop_front b) n) = _
      rw [hc, capacity_pop_front]
    · show logicalContent (popFrontN (pop_front b) n) = _
      rw [hC, logicalContent_pop_front b h hpos, ← List.drop_one, List.drop_drop,
        Nat.add_comm 1 n]

/-! ### Structured `lswap` identities -/

theorem getD_append_left_len {β : Type} (A t : List β) (d : β) :
    (A ++ t).getD A.length d = t.getD 0 d := by
  rw [List.getD_append_right _ _ _ _ (Nat.le_refl _), Nat.sub_self]

theorem set_append_len {β : Type} (A t : List β) (x : β) :
    (A ++ t).set A.length x = A ++ t.set 0 x := by
  rw [List.set_append, if_neg (by omega), Nat.sub_self]

theorem set_append_len_add {β : Type} (A t : List β) (x : β) (k : Nat) :
    (A ++ t).set (A.length + k) x = A ++ t.set k x := by
  rw [List.set_append, if_neg (by omega), Nat.add_sub_cancel_left]

theorem getD_append_len_add {β : Type} (A t : List β) (d : β) (k : Nat) :
    (A ++ t).getD (A.length + k) d = t.getD k d := by
  rw [List.getD_append_right _ _ _ _ (by omega), Nat.add_sub_cancel_left]

theorem lswap_adjacent {β : Type} (A B : List β) (x y : β) (d' : β) :
    lswap (A ++ x :: y :: B) A.length (A.length + 1) d' = A ++ y :: x :: B := by
  unfold lswap
  rw [getD_append_len_add, getD_append_left_len, List.getD_cons_succ, List.getD_cons_zero,
    List.getD_cons_zero, set_append_len, List.set_cons_zero, set_append_len_add]
  rfl

theorem lswap_adjacent_rev {β : Type} (A B : List β) (x y : β) (d' : β) :
    lswap (A ++ x :: y :: B) (A.length + 1) A.length d' = A ++ y :: x :: B := by
  unfold lswap
  rw [getD_append_len_add, getD_append_left_len, List.getD_cons_succ, List.getD_cons_zero,
    List.getD_cons_zero, set_append_len_add, set_append_len]
  rfl

theorem lswap_block {β : Type} (A M B : List β) (x y : β) (d' : β) :
    lswap (A ++ x :: (M ++ y :: B)) A.length (A.length + (M.length + 1)) d'
      = A ++ y :: (M ++ x :: B) := by
  unfold lswap
  rw [getD_append_len_add, List.getD_cons_succ, getD_append_left_len, List.getD_cons_zero,
    getD_append_left_len, List.getD_cons_zero, set_append_len, List.set_cons_zero,
    set_append_len_add]
  have hset : (y :: (M ++ y :: B)).set (M.length + 1) x = y :: (M ++ y :: B).set M.length x := rfl
  rw [hset, set_append_len, List.set_cons_zero]

theorem lswap_block_rev {β : Type} (A M B : List β) (x y : β) (d' : β) :
    lswap (A ++ x :: (M ++ y :: B)) (A.length + (M.length + 1)) A.length d'
      = A ++ y :: (M ++ x :: B) := by
  unfold lswap
  rw [getD_append_len_add, List.getD_cons_succ, getD_append_left_len, List.getD_cons_zero,
    getD_append_left_len, List.getD_cons_zero, set_append_len_add]
  have hset : (x :: (M ++ y :: B)).set (M.length + 1) x = x :: (M ++ y :: B).set M.length x := rfl
  rw [hset, set_append_len, List.set_cons_zero, set_append_len, List.set_cons_zero]

theorem lswap_append_left {β : Type} (P Q : List β) (i j : Nat) (d' : β)
    (hi : i < P.length) (hj : j < P.length) :
    lswap (P ++ Q) i j d' = lswap P i j d' ++ Q := by
  unfold lswap
  rw [List.getD_append _ _ _ _ hi, List.getD_append _ _ _ _ hj,
    List.set_append, if_pos hi, List.set_append, if_pos (by simp [hj])]

theorem lswapFold_append {β : Type} (ps : List (Nat × Nat)) :
    ∀ (P Q : List β) (d' : β), (∀ p ∈ ps, p.1 < P.length ∧ p.2 < P.length) →
    ps.foldl (fun s p => lswap s p.1 p.2 d') (P ++ Q)
      = ps.foldl (fun s p => lswap s p.1 p.2 d') P ++ Q := by
  induction ps with
  | nil => intro P Q d' _; rfl
  | cons p rest ih =>
    intro P Q d' hb
    have hp := hb p (List.mem_cons_self p rest)
    rw [List.foldl_cons, List.foldl_cons, lswap_append_left P Q p.1 p.2 d' hp.1 hp.2]
    apply ih
    intro q hq
    rw [length_lswap]
    exact hb q (List.mem_cons_of_mem p hq)

/-! ### The two bubbling loops of `insert`, at the list level -/

theorem frontBubble {β : Type} (v d' : β) : ∀ (d : Nat) (l : List β), d ≤ l.length →
    ((List.range d).map (fun i => (i, i + 1))).foldl
        (fun s p => lswap s p.1 p.2 d') (v :: l)
      = l.take d ++ v :: l.drop d := by
  intro d
  induction d with
  | zero => intro l _; rfl
  | succ d ih =>
    intro l hd
    have hdl : d < l.length := by omega
    rw [List.range_succ, List.map_append, List.foldl_append, ih l (by omega)]
    show lswap (l.take d ++ v :: l.drop d) d (d + 1) d' = _
    have hlen : (l.take d).length = d := by
      rw [List.length_take]
      omega
    have hadj := lswap_adjacent (l.take d) (l.drop (d + 1)) v (l[d]) d'
    rw [hlen] at hadj
    have htake : l.take (d + 1) = l.take d ++ [l[d]] := by
      rw [List.take_succ, List.getElem?_eq_getElem hdl]
      rfl
    rw [List.drop_eq_getElem_cons hdl, hadj, htake, List.append_assoc]
    rfl

theorem backBubble {β : Type} (v d' : β) : ∀ (m : Nat) (l : List β) (dd : Nat),
    l.length = dd + m →
    (((List.range m).reverse).map (fun k => (dd + 1 + k, dd + k))).foldl
        (fun s p => lswap s p.1 p.2 d') (l ++ [v])
      = l.take dd ++ v :: l.drop dd := by
  intro m
  induction m with
  | zero =>
    intro l dd hlen
    show l ++ [v] = _
    have hdd : dd = l.length := by omega
    rw [hdd, List.take_length, List.drop_length]
  | succ m ih =>
    intro l dd hlen
    have hne : l ≠ [] := by
      intro h0
      have hz : l.length = 0 := by rw [h0]; rfl
      omega
    have hdec := List.dropLast_append_getLast hne
    set l' := l.dropLast with hl'
    set x := l.getLast hne with hx
    have hlen' : l'.length = dd + m := by
      have : l'.length = l.length - 1 := List.length_dropLast l
      omega
    rw [List.range_succ, List.reverse_append, List.reverse_singleton, List.map_append,
      List.map_cons, List.map_nil, List.foldl_append, List.foldl_cons, List.foldl_nil]
    have hstep : lswap (l ++ [v]) (dd + 1 + m) (dd + m) d' = (l' ++ [v]) ++ [x] := by
      have hsh : l ++ [v] = l' ++ x :: v :: [] := by rw [← hdec]; simp
      rw [hsh]
      have h1 : dd + 1 + m = l'.length + 1 := by omega
      have h2 : dd + m = l'.length := by omega
      rw [h1, h2, lswap_adjacent_rev l' [] x v d']
      simp
    rw [hstep]
    have hbound : ∀ p ∈ ((List.range m).reverse).map (fun k => (dd + 1 + k, dd + k)),
        p.1 < (l' ++ [v]).length ∧ p.2 < (l' ++ [v]).length := by
      intro p hp
      obtain ⟨k, hk, hpk⟩ := List.mem_map.mp hp
      have hkm : k < m := by
        have := List.mem_reverse.mp hk
        exact List.mem_range.mp this
      rw [← hpk]
      simp only [List.length_append, List.length_cons, List.length_nil]
      constructor <;> (simp [hlen']; omega)
    rw [lswapFold_append _ (l' ++ [v]) [x] d' hbound, ih l' dd hlen']
    have htake : l.take dd = l'.take dd := by
      rw [← hdec, List.take_append_of_le_length (by omega)]
    have hdrop : l.drop dd = l'.drop dd ++ [x] := by
      rw [← hdec, List.drop_append_of_le_length (by omega)]
    rw [htake, hdrop]
    simp

/-! ### `insert` (claim C4) -/

/-- C4: `insert` at logical position `d = pos - begin()` (with
`begin() ≤ pos ≤ end()`, i.e. `d ≤ size()`) places `v` so that reading at
logical index `d` yields `v`, keeps every element previously before `d` at
its index, shifts every element previously at or after `d` one index later,
and grows the size by one. -/
theorem insert_spec (b : CB α) (d : Nat) (v : α) (h : WF b) (hd : d ≤ b.size) :
    logicalContent (insert b d v)
      = (logicalContent b).take d ++ some v :: (logicalContent b).drop d ∧
    (insert b d v).size = b.size + 1 := by
  have hC : (logicalContent b).length = b.size := length_logicalContent b
  unfold insert
  split
  · rename_i hlt
    have hdn : d < b.size := by
      have hhalf : b.size / 2 ≤ b.size := Nat.div_le_self _ _
      omega
    have hW1 : WF (push_front b v) := WF_push_front b v h
    have hs1 : (push_front b v).size = b.size + 1 := size_push_front b v
    have hC1 : logicalContent (push_front b v) = some v :: logicalContent b :=
      logicalContent_push_front b v h
    have hconv : (List.range d).foldl (fun s i => swapSlots s i (i + 1)) (push_front b v)
        = ((List.range d).map (fun i => (i, i + 1))).foldl
            (fun s p => swapSlots s p.1 p.2) (push_front b v) := by
      rw [List.foldl_map]
    have hbound : ∀ p ∈ (List.range d).map (fun i => (i, i + 1)),
        p.1 < (push_front b v).size ∧ p.2 < (push_front b v).size := by
      intro p hp
      obtain ⟨i, hi, hpi⟩ := List.mem_map.mp hp
      have : i < d := List.mem_range.mp hi
      rw [← hpi, hs1]
      exact ⟨by omega, by omega⟩
    obtain ⟨hCf, hWf, hsf⟩ := swapFold_spec ((List.range d).map (fun i => (i, i + 1)))
      (push_front b v) hW1 hbound
    rw [hconv, hCf, hC1]
    constructor
    · exact frontBubble (some v) none d (logicalContent b) (by omega)
    · rw [hsf, hs1]
  · rename_i hge
    have hW1 : WF (push_back b v) := WF_push_back b v h
    have hs1 : (push_back b v).size = b.size + 1 := size_push_back b v
    have hC1 : logicalContent (push_back b v) = logicalContent b ++ [some v] :=
      logicalContent_push_back b v h
    show logicalContent (((List.range ((push_back b v).size - 1 - d)).reverse).foldl
        (fun s k => swapSlots s (d + 1 + k) (d + k)) (push_back b v))
          = (logicalContent b).take d ++ some v :: (logicalContent b).drop d ∧
      (((List.range ((push_back b v).size - 1 - d)).reverse).foldl
        (fun s k => swapSlots s (d + 1 + k) (d + k)) (push_back b v)).size = b.size + 1
    have hm : (push_back b v).size - 1 - d = b.size - d := by
      rw [hs1]
      omega
    rw [hm]
    have hconv : ((List.range (b.size - d)).reverse).foldl
          (fun s k => swapSlots s (d + 1 + k) (d + k)) (push_back b v)
        = (((List.range (b.size - d)).reverse).map (fun k => (d + 1 + k, d + k))).foldl
            (fun s p => swapSlots s p.1 p.2) (push_back b v) := by
      rw [List.foldl_map]
    have hbound : ∀ p ∈ ((List.range (b.size - d)).reverse).map (fun k => (d + 1 + k, d + k)),
        p.1 < (push_back b v).size ∧ p.2 < (push_back b v).size := by
      intro p hp
      obtain ⟨k, hk, hpk⟩ := List.mem_map.mp hp
      have : k < b.size - d := List.mem_range.mp (List.mem_reverse.mp hk)
      rw [← hpk, hs1]
      exact ⟨by omega, by omega⟩
    obtain ⟨hCf, hWf, hsf⟩ := swapFold_spec
      (((List.range (b.size - d)).reverse).map (fun k => (d + 1 + k, d + k)))
      (push_back b v) hW1 hbound
    rw [hconv, hCf, hC1]
    constructor
    · exact backBubble (some v) none (b.size - d) (logicalContent b) d (by omega)
    · rw [hsf, hs1]

/-- Witness for C4: inserting 9 at position 1 of the buffer [10, 20]
(capacity 4) yields [10, 9, 20]. -/
theorem insert_spec_witness :
    WF (⟨1, [some 10, some 20, none, none], 0, 2⟩ : CB Nat) ∧
    1 ≤ (⟨1, [some 10, some 20, none, none], 0, 2⟩ : CB Nat).size ∧
    (logicalContent (insert (⟨1, [some 10, some 20, none, none], 0, 2⟩ : CB Nat) 1 9)
      = (logicalContent (⟨1, [some 10, some 20, none, none], 0, 2⟩ : CB Nat)).take 1
        ++ some 9 :: (logicalContent (⟨1, [some 10, some 20, none, none], 0, 2⟩ : CB Nat)).drop 1 ∧
    (insert (⟨1, [some 10, some 20, none, none], 0, 2⟩ : CB Nat) 1 9).size = 3) :=
  ⟨by decide, by decide,
    insert_spec (⟨1, [some 10, some 20, none, none], 0, 2⟩ : CB Nat) 1 9 (by decide) (by decide)⟩

/-! ### More positional helpers -/

theorem set_getElem_own {β : Type} (l : List β) (i : Nat) (h : i < l.length) :
    l.set i l[i] = l := by
  apply List.ext_getElem (by simp)
  intro n h1 h2
  rw [List.getElem_set]
  split
  · rename_i he
    subst he
    rfl
  · rfl

theorem set_getD_own {β : Type} (l : List β) (i : Nat) (d : β) :
    l.set i (l.getD i d) = l := by
  by_cases hi : i < l.length
  · rw [List.getD_eq_getElem _ _ hi]
    exact set_getElem_own l i hi
  · exact List.set_eq_of_length_le (by omega)

theorem lswap_self {β : Type} (l : List β) (i : Nat) (d' : β) :
    lswap l i i d' = l := by
  unfold lswap
  rw [List.set_set, set_getD_own]

theorem getD_take_lt {β : Type} (l : List β) (m n : Nat) (d : β) (h : n < m) :
    (l.take m).getD n d = l.getD n d := by
  by_cases hn : n < l.length
  · rw [List.getD_eq_getElem _ _ (by rw [List.length_take]; omega),
      List.getD_eq_getElem _ _ hn, List.getElem_take]
  · rw [List.getD_eq_default _ _ (by rw [List.length_take]; omega),
      List.getD_eq_default _ _ (by omega)]

theorem getD_drop {β : Type} (l : List β) (m n : Nat) (d : β) :
    (l.drop m).getD n d = l.getD (m + n) d := by
  by_cases hn : m + n < l.length
  · rw [List.getD_eq_getElem _ _ (by rw [List.length_drop]; omega),
      List.getD_eq_getElem _ _ hn, List.getElem_drop]
  · rw [List.getD_eq_default _ _ (by rw [List.length_drop]; omega),
      List.getD_eq_default _ _ (by omega)]

/-! ### The two shifting loops of `erase`, at the list level -/

theorem eraseLeftFold {β : Type} (d' : β) (delta : Nat) : ∀ (m : Nat) (L : List β) (f : Nat),
    f + delta + m ≤ L.length →
    (((List.range m).map (fun k => (f + k, f + k + delta))).foldl
        (fun s p => lswap s p.1 p.2 d') L).length = L.length ∧
    (∀ j, j < f → (((List.range m).map (fun k => (f + k, f + k + delta))).foldl
        (fun s p => lswap s p.1 p.2 d') L).getD j d' = L.getD j d') ∧
    (∀ k, k < m → (((List.range m).map (fun k => (f + k, f + k + delta))).foldl
        (fun s p => lswap s p.1 p.2 d') L).getD (f + k) d' = L.getD (f + k + delta) d') ∧
    (∀ j, f + m + delta ≤ j → (((List.range m).map (fun k => (f + k, f + k + delta))).foldl
        (fun s p => lswap s p.1 p.2 d') L).getD j d' = L.getD j d') := by
  intro m
  induction m with
  | zero =>
    intro L f _
    exact ⟨rfl, fun j _ => rfl, fun k hk => absurd hk (by omega), fun j _ => rfl⟩
  | succ m ih =>
    intro L f h
    obtain ⟨hl, h1, h2, h3⟩ := ih L f (by omega)
    rw [List.range_succ, List.map_append, List.map_cons, List.map_nil, List.foldl_append,
      List.foldl_cons, List.foldl_nil]
    set Rm := (((List.range m).map (fun k => (f + k, f + k + delta))).foldl
        (fun s p => lswap s p.1 p.2 d') L) with hRm
    by_cases hdz : delta = 0
    · subst hdz
      rw [Nat.add_zero (f + m), lswap_self]
      refine ⟨hl, h1, ?_, fun j hj => h3 j (by omega)⟩
      intro k hk
      by_cases hkm : k < m
      · exact h2 k hkm
      · have hke : k = m := by omega
        subst hke
        rw [Nat.add_zero (f + k)]
        exact h3 (f + k) (by omega)
    · have hfm : f + m < Rm.length := by omega
      refine ⟨by rw [length_lswap, hl], ?_, ?_, ?_⟩
      · intro j hj
        rw [getD_lswap_other _ _ _ _ _ (by omega) (by omega)]
        exact h1 j hj
      · intro k hk
        by_cases hkm : k < m
        · rw [getD_lswap_other _ _ _ _ _ (by omega) (by omega)]
          exact h2 k hkm
        · have hke : k = m := by omega
          subst hke
          rw [getD_lswap_fst _ _ _ _ (by omega) hfm]
          exact h3 (f + k + delta) (by omega)
      · intro j hj
        rw [getD_lswap_other _ _ _ _ _ (by omega) (by omega)]
        exact h3 j (by omega)

theorem eraseRightFold {β : Type} (d' : β) (delta : Nat) (hdelta : 0 < delta) :
    ∀ (ff : Nat) (L : List β), ff + delta ≤ L.length →
    ((((List.range ff).reverse).map (fun k => (delta + k, k))).foldl
        (fun s p => lswap s p.1 p.2 d') L).length = L.length ∧
    (∀ k, k < ff → ((((List.range ff).reverse).map (fun k => (delta + k, k))).foldl
        (fun s p => lswap s p.1 p.2 d') L).getD (delta + k) d' = L.getD k d') ∧
    (∀ j, ff + delta ≤ j → ((((List.range ff).reverse).map (fun k => (delta + k, k))).foldl
        (fun s p => lswap s p.1 p.2 d') L).getD j d' = L.getD j d') := by
  intro ff
  induction ff with
  | zero =>
    intro L _
    exact ⟨rfl, fun k hk => absurd hk (by omega), fun j _ => rfl⟩
  | succ ff ih =>
    intro L h
    rw [List.range_succ, List.reverse_append, List.reverse_singleton, List.map_append,
      List.map_cons, List.map_nil, List.foldl_append, List.foldl_cons, List.foldl_nil]
    set L1 := lswap L (delta + ff) ff d' with hL1
    obtain ⟨hl, h2, h3⟩ := ih L1 (by rw [length_lswap]; omega)
    refine ⟨by rw [hl, length_lswap], ?_, ?_⟩
    · intro k hk
      by_cases hkf : k < ff
      · rw [h2 k hkf, hL1, getD_lswap_other _ _ _ _ _ (by omega) (by omega)]
      · have hke : k = ff := by omega
        subst hke
        rw [h3 (delta + k) (by omega), hL1,
          getD_lswap_fst _ _ _ _ (by omega) (by omega)]
    · intro j hj
      rw [h3 j (by omega), hL1, getD_lswap_other _ _ _ _ _ (by omega) (by omega)]

theorem getD_congr_idx {β : Type} (L : List β) (d : β) (i i' : Nat) (h : i = i') :
    L.getD i d = L.getD i' d := by
  rw [h]

/-! ### `erase` (claim C5) -/

/-- C5: `erase` on the logical range `[f, l)` (cursor offsets,
`f ≤ l ≤ size()`) removes exactly `l - f` elements: elements before `f` keep
their indices, elements at or after `l` move down by `l - f`, and the size
drops by `l - f`; in particular `f = l` leaves the content unchanged. -/
theorem erase_spec (b : CB α) (f l : Nat) (h : WF b) (hfl : f ≤ l) (hl : l ≤ b.size) :
    logicalContent (erase b f l)
      = (logicalContent b).take f ++ (logicalContent b).drop l ∧
    (erase b f l).size = b.size - (l - f) := by
  have hC : (logicalContent b).length = b.size := length_logicalContent b
  have hRHSlt : ∀ j, j < f →
      ((logicalContent b).take f ++ (logicalContent b).drop l).getD j none
        = (logicalContent b).getD j none := by
    intro j hj
    rw [List.getD_append _ _ _ j (by rw [List.length_take]; omega), getD_take_lt _ _ _ _ hj]
  have hRHSge : ∀ j, f ≤ j →
      ((logicalContent b).take f ++ (logicalContent b).drop l).getD j none
        = (logicalContent b).getD (l + (j - ((logicalContent b).take f).length)) none := by
    intro j hj
    rw [List.getD_append_right _ _ _ j (by rw [List.length_take]; omega), getD_drop]
  have hRHSlen : ((logicalContent b).take f ++ (logicalContent b).drop l).length
      = b.size - (l - f) := by
    rw [List.length_append, List.length_take, List.length_drop, hC]
    omega
  simp only [erase]
  split
  · rename_i hcond
    have hconv : (List.range (b.size - (l - f) - f)).foldl
          (fun s k => swapSlots s (f + k) (f + k + (l - f))) b
        = ((List.range (b.size - (l - f) - f)).map (fun k => (f + k, f + k + (l - f)))).foldl
            (fun s p => swapSlots s p.1 p.2) b := by
      rw [List.foldl_map]
    rw [hconv]
    have hbound : ∀ p ∈ (List.range (b.size - (l - f) - f)).map
          (fun k => (f + k, f + k + (l - f))),
        p.1 < b.size ∧ p.2 < b.size := by
      intro p hp
      obtain ⟨k, hk, hpk⟩ := List.mem_map.mp hp
      have hkm : k < b.size - (l - f) - f := List.mem_range.mp hk
      rw [← hpk]
      exact ⟨by omega, by omega⟩
    obtain ⟨hCf, hWf, hsf⟩ := swapFold_spec
      ((List.range (b.size - (l - f) - f)).map (fun k => (f + k, f + k + (l - f)))) b h hbound
    obtain ⟨hLl, hc1, hc2, hc3⟩ := eraseLeftFold none (l - f) (b.size - (l - f) - f)
      (logicalContent b) f (by omega)
    obtain ⟨hW2, hs2, hcap2, hC2⟩ := popBackN_spec (l - f) _ hWf (by rw [hsf]; omega)
    constructor
    · rw [hC2, hCf, hsf]
      apply eq_of_getD _ _ none
      · rw [List.length_take, hLl, hC, hRHSlen]
        omega
      · intro j hj
        rw [List.length_take, hLl, hC] at hj
        have hj' : j < b.size - (l - f) := by omega
        rw [getD_take_lt _ _ _ _ hj']
        by_cases hjf : j < f
        · rw [hc1 j hjf, hRHSlt j hjf]
        · have h2 := hc2 (j - f) (by omega)
          have hj2 : f + (j - f) = j := by omega
          rw [hj2] at h2
          rw [h2, hRHSge j (by omega)]
          exact getD_congr_idx _ none _ _ (by rw [List.length_take]; omega)
    · rw [hs2, hsf]
  · split
    · rename_i hcond hdz
      have hlf : l = f := by omega
      subst hlf
      exact ⟨by rw [List.take_append_drop], by omega⟩
    · rename_i hcond hdz
      have hff : l - (l - f) = f := by omega
      rw [hff]
      have hconv : ((List.range f).reverse).foldl
            (fun s k => swapSlots s ((l - f) + k) k) b
          = (((List.range f).reverse).map (fun k => ((l - f) + k, k))).foldl
              (fun s p => swapSlots s p.1 p.2) b := by
        rw [List.foldl_map]
      rw [hconv]
      have hbound : ∀ p ∈ ((List.range f).reverse).map (fun k => ((l - f) + k, k)),
          p.1 < b.size ∧ p.2 < b.size := by
        intro p hp
        obtain ⟨k, hk, hpk⟩ := List.mem_map.mp hp
        have hkm : k < f := List.mem_range.mp (List.mem_reverse.mp hk)
        rw [← hpk]
        exact ⟨by omega, by omega⟩
      obtain ⟨hCf, hWf, hsf⟩ := swapFold_spec
        (((List.range f).reverse).map (fun k => ((l - f) + k, k))) b h hbound
      obtain ⟨hLl, hc2, hc3⟩ := eraseRightFold none (l - f) (by omega) f
        (logicalContent b) (by omega)
      obtain ⟨hW2, hs2, hcap2, hC2⟩ := popFrontN_spec (l - f) _ hWf (by rw [hsf]; omega)
      constructor
      · rw [hC2, hCf]
        apply eq_of_getD _ _ none
        · rw [List.length_drop, hLl, hC, hRHSlen]
        · intro j hj
          rw [List.length_drop, hLl, hC] at hj
          rw [getD_drop]
          by_cases hjf : j < f
          · rw [hc2 j hjf, hRHSlt j hjf]
          · rw [hc3 ((l - f) + j) (by omega), hRHSge j (by omega)]
            exact getD_congr_idx _ none _ _ (by rw [List.length_take]; omega)
      · rw [hs2, hsf]

/-- Witness for C5: erasing the range [1, 3) from the buffer [0, 1, 2, 3, 4]
leaves [0, 3, 4] and size 3. -/
theorem erase_spec_witness :
    WF (⟨1, [some 0, some 1, some 2, some 3, some 4], 0, 5⟩ : CB Nat) ∧
    (1 : Nat) ≤ 3 ∧
    3 ≤ (⟨1, [some 0, some 1, some 2, some 3, some 4], 0, 5⟩ : CB Nat).size ∧
    (logicalContent (erase (⟨1, [some 0, some 1, some 2, some 3, some 4], 0, 5⟩ : CB Nat) 1 3)
      = (logicalContent (⟨1, [some 0, some 1, some 2, some 3, some 4], 0, 5⟩ : CB Nat)).take 1
        ++ (logicalContent (⟨1, [some 0, some 1, some 2, some 3, some 4], 0, 5⟩ : CB Nat)).drop 3 ∧
    (erase (⟨1, [some 0, some 1, some 2, some 3, some 4], 0, 5⟩ : CB Nat) 1 3).size = 5 - (3 - 1)) :=
  ⟨by decide, by decide, by decide,
    erase_spec (⟨1, [some 0, some 1, some 2, some 3, some 4], 0, 5⟩ : CB Nat) 1 3
      (by decide) (by decide) (by decide)⟩

/-! ### Invariant preservation for the remaining operations -/

theorem WF_insert (b : CB α) (d : Nat) (v : α) (h : WF b) : WF (insert b d v) := by
  unfold insert
  split
  · rename_i hlt
    have hW1 : WF (push_front b v) := WF_push_front b v h
    have hs1 : (push_front b v).size = b.size + 1 := size_push_front b v
    have hconv : (List.range d).foldl (fun s i => swapSlots s i (i + 1)) (push_front b v)
        = ((List.range d).map (fun i => (i, i + 1))).foldl
            (fun s p => swapSlots s p.1 p.2) (push_front b v) := by
      rw [List.foldl_map]
    rw [hconv]
    refine (swapFold_spec _ _ hW1 ?_).2.1
    intro p hp
    obtain ⟨i, hi, hpi⟩ := List.mem_map.mp hp
    have hid : i < d := List.mem_range.mp hi
    have hdn : d < b.size := by
      have := Nat.div_le_self b.size 2
      omega
    rw [← hpi, hs1]
    exact ⟨by omega, by omega⟩
  · show WF (((List.range ((push_back b v).size - 1 - d)).reverse).foldl
        (fun s k => swapSlots s (d + 1 + k) (d + k)) (push_back b v))
    have hW1 : WF (push_back b v) := WF_push_back b v h
    have hconv : ((List.range ((push_back b v).size - 1 - d)).reverse).foldl
          (fun s k => swapSlots s (d + 1 + k) (d + k)) (push_back b v)
        = (((List.range ((push_back b v).size - 1 - d)).reverse).map
            (fun k => (d + 1 + k, d + k))).foldl
              (fun s p => swapSlots s p.1 p.2) (push_back b v) := by
      rw [List.foldl_map]
    rw [hconv]
    refine (swapFold_spec _ _ hW1 ?_).2.1
    intro p hp
    obtain ⟨k, hk, hpk⟩ := List.mem_map.mp hp
    have hkm : k < (push_back b v).size - 1 - d := List.mem_range.mp (List.mem_reverse.mp hk)
    rw [← hpk]
    exact ⟨by omega, by omega⟩

theorem WF_erase (b : CB α) (f l : Nat) (h : WF b) (hfl : f ≤ l) (hl : l ≤ b.size) :
    WF (erase b f l) := by
  simp only [erase]
  split
  · have hconv : (List.range (b.size - (l - f) - f)).foldl
          (fun s k => swapSlots s (f + k) (f + k + (l - f))) b
        = ((List.range (b.size - (l - f) - f)).map (fun k => (f + k, f + k + (l - f)))).foldl
            (fun s p => swapSlots s p.1 p.2) b := by
      rw [List.foldl_map]
    rw [hconv]
    have hbound : ∀ p ∈ (List.range (b.size - (l - f) - f)).map
          (fun k => (f + k, f + k + (l - f))),
        p.1 < b.size ∧ p.2 < b.size := by
      intro p hp
      obtain ⟨k, hk, hpk⟩ := List.mem_map.mp hp
      have hkm : k < b.size - (l - f) - f := List.mem_range.mp hk
      rw [← hpk]
      exact ⟨by omega, by omega⟩
    obtain ⟨-, hWf, hsf⟩ := swapFold_spec _ b h hbound
    exact (popBackN_spec (l - f) _ hWf (by rw [hsf]; omega)).1
  · split
    · exact h
    · have hff : l - (l - f) = f := by omega
      rw [hff]
      have hconv : ((List.range f).reverse).foldl
            (fun s k => swapSlots s ((l - f) + k) k) b
          = (((List.range f).reverse).map (fun k => ((l - f) + k, k))).foldl
              (fun s p => swapSlots s p.1 p.2) b := by
        rw [List.foldl_map]
      rw [hconv]
      have hbound : ∀ p ∈ ((List.range f).reverse).map (fun k => ((l - f) + k, k)),
          p.1 < b.size ∧ p.2 < b.size := by
        intro p hp
        obtain ⟨k, hk, hpk⟩ := List.mem_map.mp hp
        have hkm : k < f := List.mem_range.mp (List.mem_reverse.mp hk)
        rw [← hpk]
        exact ⟨by omega, by omega⟩
      obtain ⟨-, hWf, hsf⟩ := swapFold_spec _ b h hbound
      exact (popFrontN_spec (l - f) _ hWf (by rw [hsf]; omega)).1

theorem WF_clear (b : CB α) (h : WF b) : WF (clear b) :=
  (popBackN_spec b.size b h (Nat.le_refl _)).1

theorem WF_assign (a b : CB α) (ha : WF a) : WF (assign a b) := by
  unfold assign
  split
  · exact ha
  · exact WF_copyWithCap b b.size

theorem reach_WF {b : CB α} (h : Reach b) : WF b := by
  induction h with
  | init => exact WF_emptyCB
  | pushB v _ ih => exact WF_push_back _ v ih
  | pushF v _ ih => exact WF_push_front _ v ih
  | popB _ hpos ih => exact WF_pop_back _ ih
  | popF _ hpos ih => exact WF_pop_front _ ih hpos
  | res n _ ih => exact WF_ensure _ n ih
  | clr _ ih => exact WF_clear _ ih
  | ins d v _ hd ih => exact WF_insert _ d v ih
  | ers f l _ hfl hls ih => exact WF_erase _ f l ih hfl hls
  | copy _ ih => exact WF_copyWithCap _ _
  | asn _ _ iha ihb => exact WF_assign _ _ iha

/-! ### Claims C8 and C10 -/

/-- C8: in every state reachable from default construction by public
operations (with every precondition respected), the number of live elements
never exceeds the allocated capacity. -/
theorem reachable_size_le_capacity (b : CB α) (h : Reach b) : b.size ≤ capacity b :=
  (reach_WF h).1

/-- Witness for C8 at the reachable state obtained by one push_back. -/
theorem reachable_size_le_capacity_witness :
    (push_back (emptyCB : CB Nat) 3).size ≤ capacity (push_back (emptyCB : CB Nat) 3) :=
  reachable_size_le_capacity _ (Reach.pushB 3 Reach.init)

/-- C10: in every reachable state with positive capacity, the head index is a
valid physical slot (`head < capacity`), so the physical slot
`(head + i) % capacity` of every logical element is well defined. -/
theorem reachable_head_lt_capacity (b : CB α) (h : Reach b) (hc : 0 < capacity b) :
    b.head < capacity b :=
  (reach_WF h).2.2 hc

/-- Witness for C10 at the reachable state obtained by push_back then
push_front (which wraps the head to the last slot). -/
theorem reachable_head_lt_capacity_witness :
    0 < capacity (push_front (push_back (emptyCB : CB Nat) 3) 4) ∧
    (push_front (push_back (emptyCB : CB Nat) 3) 4).head
      < capacity (push_front (push_back (emptyCB : CB Nat) 3) 4) :=
  ⟨by decide, reachable_head_lt_capacity _
    (Reach.pushF 4 (Reach.pushB 3 Reach.init)) (by decide)⟩

/-! ### Exception behaviour of the pushes (claim C2) -/

theorem copyWithCapF_ok (f : α → Bool) (g : Nat → Bool) (b : CB α) (n : Nat) (t : CB α)
    (h : copyWithCapF f g b n = Except.ok t) : t = copyWithCap b n := by
  unfold copyWithCapF at h
  split at h
  · exact absurd h (by simp)
  · split at h
    · exact absurd h (by simp)
    · injection h with h
      exact h.symm

theorem ensureCapacityF_error (f : α → Bool) (g : Nat → Bool) (b : CB α) (n : Nat) (s : CB α)
    (h : ensureCapacityF f g b n = Except.error s) : s = b := by
  unfold ensureCapacityF at h
  split at h
  · split at h
    · injection h with h
      exact h.symm
    · exact absurd h (by simp)
  · exact absurd h (by simp)

theorem ensureCapacityF_ok_of_lt (f : α → Bool) (g : Nat → Bool) (b : CB α) (n : Nat)
    (s : CB α) (hlt : b.store.length < n) (h : ensureCapacityF f g b n = Except.ok s) :
    s = copyWithCap b n := by
  unfold ensureCapacityF at h
  rw [if_pos hlt] at h
  cases hE : copyWithCapF f g b n with
  | error e =>
    rw [hE] at h
    exact absurd h (by simp)
  | ok tmp =>
    rw [hE] at h
    injection h with h
    rw [← h]
    exact copyWithCapF_ok f g b n tmp hE

/-- C2 as amended: if `push_back` or `push_front` exits with an exception,
the buffer's logical content and size are exactly as before the call; the
capacity, however, is as before only when the failure happened before the
growth was committed — when the failing step is the copy of the *new*
element after a successful reallocation, the buffer is left with the grown
capacity `max(1, 2c)` (and head `0`). -/
theorem push_error_state (f : α → Bool) (g : Nat → Bool) (b : CB α) (v : α) (h : WF b) :
    (∀ s, pushBackF f g b v = Except.error s →
      logicalContent s = logicalContent b ∧ s.size = b.size ∧
      (capacity s = capacity b ∨
        (b.size = capacity b ∧ f v = true ∧ capacity s = growCap (capacity b) ∧ s.head = 0))) ∧
    (∀ s, pushFrontF f g b v = Except.error s →
      logicalContent s = logicalContent b ∧ s.size = b.size ∧
      (capacity s = capacity b ∨
        (b.size = capacity b ∧ f v = true ∧ capacity s = growCap (capacity b) ∧ s.head = 0))) := by
  have hgrow : b.store.length < growCap b.store.length := growCap_gt _
  have hcapgrow : capacity (copyWithCap b (growCap b.store.length)) = growCap (capacity b) := by
    have := capacity_copyWithCap b (growCap b.store.length) (by have := h.1; omega)
    exact this
  constructor
  · intro s hs
    unfold pushBackF at hs
    by_cases hfull : b.size = b.store.length
    · rw [if_pos hfull] at hs
      cases hE : ensureCapacityF f g b (growCap b.store.length) with
      | error t =>
        rw [hE] at hs
        injection hs with hs
        rw [← hs, ensureCapacityF_error f g b _ t hE]
        exact ⟨rfl, rfl, Or.inl rfl⟩
      | ok t =>
        rw [hE] at hs
        have hs' : (if f v = true then Except.error t else Except.ok (pushBackRaw t v))
            = Except.error s := hs
        have ht : t = copyWithCap b (growCap b.store.length) :=
          ensureCapacityF_ok_of_lt f g b _ t hgrow hE
        by_cases hfv : f v = true
        · rw [if_pos hfv] at hs'
          injection hs' with hs'
          rw [← hs', ht]
          exact ⟨logicalContent_copyWithCap b _, rfl,
            Or.inr ⟨hfull, hfv, hcapgrow, rfl⟩⟩
        · rw [if_neg hfv] at hs'
          exact absurd hs' (by simp)
    · rw [if_neg hfull] at hs
      by_cases hfv : f v = true
      · rw [if_pos hfv] at hs
        injection hs with hs
        rw [← hs]
        exact ⟨rfl, rfl, Or.inl rfl⟩
      · rw [if_neg hfv] at hs
        exact absurd hs (by simp)
  · intro s hs
    unfold pushFrontF at hs
    by_cases hfull : b.size = b.store.length
    · rw [if_pos hfull] at hs
      cases hE : ensureCapacityF f g b (growCap b.store.length) with
      | error t =>
        rw [hE] at hs
        injection hs with hs
        rw [← hs, ensureCapacityF_error f g b _ t hE]
        exact ⟨rfl, rfl, Or.inl rfl⟩
      | ok t =>
        rw [hE] at hs
        have hs' : (if f v = true then Except.error t else Except.ok (pushFrontRaw t v))
            = Except.error s := hs
        have ht : t = copyWithCap b (growCap b.store.length) :=
          ensureCapacityF_ok_of_lt f g b _ t hgrow hE
        by_cases hfv : f v = true
        · rw [if_pos hfv] at hs'
          injection hs' with hs'
          rw [← hs', ht]
          exact ⟨logicalContent_copyWithCap b _, rfl,
            Or.inr ⟨hfull, hfv, hcapgrow, rfl⟩⟩
        · rw [if_neg hfv] at hs'
          exact absurd hs' (by simp)
    · rw [if_neg hfull] at hs
      by_cases hfv : f v = true
      · rw [if_pos hfv] at hs
        injection hs with hs
        rw [← hs]
        exact ⟨rfl, rfl, Or.inl rfl⟩
      · rw [if_neg hfv] at hs
        exact absurd hs (by simp)

/-- Counterexample to C2 as stated: on the full buffer [false] of capacity 1,
`push_back` of an element whose copy constructor throws first commits the
reallocation (capacity 2, head 0), then fails copying the new element; the
exception escapes with the logical content and size intact but the capacity
changed from 1 to 2. -/
theorem push_error_capacity_counterexample :
    pushBackF (fun x => x) (fun _ => false) (⟨1, [some false], 0, 1⟩ : CB Bool) true
      = Except.error (⟨2, [some false, none], 0, 1⟩ : CB Bool) ∧
    capacity (⟨2, [some false, none], 0, 1⟩ : CB Bool) = 2 ∧
    capacity (⟨1, [some false], 0, 1⟩ : CB Bool) = 1 ∧
    logicalContent (⟨2, [some false, none], 0, 1⟩ : CB Bool)
      = logicalContent (⟨1, [some false], 0, 1⟩ : CB Bool) ∧
    (⟨2, [some false, none], 0, 1⟩ : CB Bool).size = (⟨1, [some false], 0, 1⟩ : CB Bool).size :=
  ⟨rfl, rfl, rfl, rfl, rfl⟩

/-- Witness for the amended C2 at the counterexample input. -/
theorem push_error_state_witness :
    WF (⟨1, [some false], 0, 1⟩ : CB Bool) ∧
    (logicalContent (⟨2, [some false, none], 0, 1⟩ : CB Bool)
        = logicalContent (⟨1, [some false], 0, 1⟩ : CB Bool) ∧
      (⟨2, [some false, none], 0, 1⟩ : CB Bool).size = (⟨1, [some false], 0, 1⟩ : CB Bool).size ∧
      (capacity (⟨2, [some false, none], 0, 1⟩ : CB Bool)
          = capacity (⟨1, [some false], 0, 1⟩ : CB Bool) ∨
        ((⟨1, [some false], 0, 1⟩ : CB Bool).size = capacity (⟨1, [some false], 0, 1⟩ : CB Bool) ∧
          (fun (x : Bool) => x) true = true ∧
          capacity (⟨2, [some false, none], 0, 1⟩ : CB Bool)
            = growCap (capacity (⟨1, [some false], 0, 1⟩ : CB Bool)) ∧
          (⟨2, [some false, none], 0, 1⟩ : CB Bool).head = 0))) :=
  ⟨by decide,
    (push_error_state (fun x => x) (fun _ => false) (⟨1, [some false], 0, 1⟩ : CB Bool) true
      (by decide)).1 (⟨2, [some false, none], 0, 1⟩ : CB Bool) rfl⟩

end CircBuf
